import Mathlib

/-!
Verification development for the in-memory RAG engine of
`backend_core/rag_engine.py` (granite_advanced_chatbot).

The engine keeps three module-level parallel structures: a FAISS
`IndexFlatL2` (`_index`), the chunk texts (`_chunks`) and the per-chunk
metadata dicts (`_metadata`).  Texts are chunked by a character sliding
window (`_chunk_text`), embedded in one batch (`embed_texts`, an external
model collaborator returning a rectangular array of shape
`(len(texts), dim)`), appended to the index, and retrieved by exact
squared-L2 nearest-neighbour search (`query_corpus`).

Python strings are embedded as `List Char`; float vectors as `List ℚ`
(exact rationals standing for the floating-point values); the embedding
provider as an explicit function argument `Embed`; numpy/FAISS batch
shapes as list lengths.  Fallible operations return `Except RagError`.
-/

namespace RagEngine

/-- Python strings are modelled as lists of characters. -/
abbrev Str := List Char

/-- Python `str.strip()`: drop leading and trailing whitespace. -/
def trim (l : Str) : Str :=
  ((l.dropWhile Char.isWhitespace).reverse.dropWhile Char.isWhitespace).reverse

/-- Line-ending normalisation from `_chunk_text`:
`text.replace("\r\n", "\n").replace("\r", "\n")`, i.e. a left-to-right
scan turning CRLF pairs and lone CRs into LF. -/
def normalizeNewlines : Str → Str
  | [] => []
  | '\r' :: '\n' :: rest => '\n' :: normalizeNewlines rest
  | '\r' :: rest => '\n' :: normalizeNewlines rest
  | c :: rest => c :: normalizeNewlines rest

/-- The `while start < length` loop of `_chunk_text`, with explicit fuel
(the Python loop has no termination guarantee; `none` means the fuel ran
out, i.e. the loop was still running after `fuel` iterations).  Each
iteration takes the window `text[start:end]` with
`end = min(start + max_chars, length)`, strips it, keeps it if
non-empty, breaks when `end == length`, and otherwise restarts at
`max(0, end - overlap)` (natural subtraction `e - overlap` is exactly
that clamp).  The list is produced in cons form; the Python code appends
to an accumulator, which yields the same list in the same order. -/
def chunkLoop (cs : Str) (maxChars overlap : Nat) : Nat → Nat → Option (List Str)
  | 0, _ => none
  | fuel + 1, start =>
    if start < cs.length then
      let e := min (start + maxChars) cs.length
      let chunk := trim ((cs.drop start).take (e - start))
      let rest := if e = cs.length then some [] else
        chunkLoop cs maxChars overlap fuel (e - overlap)
      rest.map (fun r => if chunk.isEmpty then r else chunk :: r)
    else some []

/-- `_chunk_text(text, max_chars, overlap)`: normalise line endings, then
run the window loop from position 0.  Fuel `length + 1` is sufficient
whenever `overlap < max_chars` (each non-final iteration advances
`start` by at least one). -/
def chunkText (text : Str) (maxChars overlap : Nat) : Option (List Str) :=
  let cs := normalizeNewlines text
  chunkLoop cs maxChars overlap (cs.length + 1) 0

/-- The same window loop, recording the `(start, end)` positions of the
windows it visits instead of the stripped chunk texts. -/
def windowLoop (len maxChars overlap : Nat) : Nat → Nat → Option (List (Nat × Nat))
  | 0, _ => none
  | fuel + 1, start =>
    if start < len then
      let e := min (start + maxChars) len
      if e = len then some [(start, e)]
      else (windowLoop len maxChars overlap fuel (e - overlap)).map (((start, e)) :: ·)
    else some []

/-- Window positions visited by `_chunk_text` on the normalised text. -/
def chunkWindows (text : Str) (maxChars overlap : Nat) : Option (List (Nat × Nat)) :=
  let cs := normalizeNewlines text
  windowLoop cs.length maxChars overlap (cs.length + 1) 0

theorem trim_length_le (l : Str) : (trim l).length ≤ l.length := by
  calc (trim l).length
      = ((l.dropWhile Char.isWhitespace).reverse.dropWhile Char.isWhitespace).length := by
        simp [trim]
    _ ≤ (l.dropWhile Char.isWhitespace).reverse.length :=
        (List.dropWhile_sublist _).length_le
    _ = (l.dropWhile Char.isWhitespace).length := by simp
    _ ≤ l.length := (List.dropWhile_sublist _).length_le

/-- The window loop terminates with fuel `length - start + 1` whenever
`overlap < maxChars`: each non-final iteration advances `start`. -/
theorem chunkLoop_isSome (cs : Str) (maxChars overlap : Nat) (h : overlap < maxChars) :
    ∀ fuel start, cs.length - start < fuel →
      (chunkLoop cs maxChars overlap fuel start).isSome := by
  intro fuel
  induction fuel with
  | zero => intro start hs; omega
  | succ n ih =>
    intro start hs
    rw [chunkLoop]
    by_cases hlt : start < cs.length
    · simp only [hlt, if_pos]
      by_cases he : min (start + maxChars) cs.length = cs.length
      · simp [he]
      · have hmin : min (start + maxChars) cs.length = start + maxChars := by omega
        simp only [he, if_neg, not_false_iff]
        have : cs.length - (min (start + maxChars) cs.length - overlap) < n := by omega
        have := ih (min (start + maxChars) cs.length - overlap) this
        cases hres : chunkLoop cs maxChars overlap n (min (start + maxChars) cs.length - overlap) with
        | none => rw [hres] at this; simp at this
        | some r => simp [hres]
    · simp [hlt]

/-- The default parameters used by `add_document_from_text` are
`max_chars = 800`, `overlap = 200`, for which the loop terminates. -/
theorem chunkText_default_isSome (text : Str) : (chunkText text 800 200).isSome :=
  chunkLoop_isSome _ 800 200 (by omega) _ 0 (by omega)

/-- Total runner for `_chunk_text` at the default parameters; by
`chunkText_default_isSome` the `[]` default is never taken. -/
def chunkTextRun (text : Str) : List Str := (chunkText text 800 200).getD []

/-- The one error the corpus store can surface: FAISS's
`IndexFlat.add` asserts that the batch width equals the index
dimension (`assert d == self.d` in the faiss Python wrapper) and fails
without touching the index otherwise. -/
inductive RagError where
  | dimMismatch
  deriving DecidableEq, Repr

/-- Ordering used to model FAISS's deterministic exact search result
order on `(distance, insertion id)` pairs: ascending squared-L2
distance, ties broken by ascending id. -/
def resLE (a b : ℚ × Nat) : Prop :=
  a.1 < b.1 ∨ (a.1 = b.1 ∧ a.2 ≤ b.2)

instance : DecidableRel resLE := fun a b =>
  inferInstanceAs (Decidable (a.1 < b.1 ∨ (a.1 = b.1 ∧ a.2 ≤ b.2)))

instance : IsTotal (ℚ × Nat) resLE :=
  ⟨fun a b => by
    rcases lt_trichotomy a.1 b.1 with h | h | h
    · exact Or.inl (Or.inl h)
    · rcases Nat.le_total a.2 b.2 with h2 | h2
      · exact Or.inl (Or.inr ⟨h, h2⟩)
      · exact Or.inr (Or.inr ⟨h.symm, h2⟩)
    · exact Or.inr (Or.inl h)⟩

instance : IsTrans (ℚ × Nat) resLE :=
  ⟨fun a b c hab hbc => by
    rcases hab with h1 | ⟨h1, h1'⟩ <;> rcases hbc with h2 | ⟨h2, h2'⟩
    · exact Or.inl (h1.trans h2)
    · exact Or.inl (h2 ▸ h1)
    · exact Or.inl (h1 ▸ h2)
    · exact Or.inr ⟨h1.trans h2, h1'.trans h2'⟩⟩

/-- Squared Euclidean (L2) distance between two vectors, the metric of
`faiss.IndexFlatL2`.  Components are exact rationals standing for the
float32 values. -/
def sqDist (u v : List ℚ) : ℚ :=
  ((u.zip v).map (fun p => (p.1 - p.2) ^ 2)).sum

/-- Modelled from the spec: `faiss.IndexFlatL2` is an external
collaborator (not part of this repository's sources).  Per the spec's
Vector Index contract it stores vectors of one fixed dimension `d` and
supports exact search.  `vecs` holds the stored vectors in insertion
order; `ntotal` is their number. -/
structure IndexFlatL2 where
  d : Nat
  vecs : List (List ℚ)
  deriving DecidableEq, Repr

/-- FAISS `index.ntotal` / `index.count()`: number of stored vectors. -/
def IndexFlatL2.count (i : IndexFlatL2) : Nat := i.vecs.length

/-- FAISS `index.add(x)`: the Python wrapper reads `n, d = x.shape` and
asserts `d == self.d` before appending; on mismatch it raises without
mutating the index.  A numpy batch is rectangular, so its width is the
width of its first row. -/
def IndexFlatL2.add (i : IndexFlatL2) (emb : List (List ℚ)) :
    Except RagError IndexFlatL2 :=
  match emb.head? with
  | none => .ok i
  | some v =>
    if v.length = i.d then .ok ⟨i.d, i.vecs ++ emb⟩
    else .error .dimMismatch

/-- Modelled from the spec: `faiss.IndexFlatL2.search(q, k)` performs
exact brute-force search and returns the `min(k, ntotal)` nearest
stored vectors, ordered by ascending squared-L2 distance with ties
broken by ascending insertion id (spec §4.3: deterministic ordering).
We model it as sorting the `(distance, id)` pairs by that order and
taking the first `k`. -/
def IndexFlatL2.search (i : IndexFlatL2) (q : List ℚ) (k : Nat) :
    List (ℚ × Nat) :=
  (List.insertionSort resLE
    (i.vecs.enum.map (fun p => (sqDist q p.2, p.1)))).take k

/-- The module-level mutable state of `rag_engine.py`: the FAISS index
`_index` (`None` until the first successful insert), the chunk texts
`_chunks`, and the metadata dicts `_metadata`.  Each metadata dict is
`{"source": source_name}` with exactly one key, so it is modelled by
the source label itself. -/
structure RagState where
  index : Option IndexFlatL2
  chunks : List Str
  metadata : List Str
  deriving DecidableEq, Repr

/-- The state at process start: no index, empty parallel lists. -/
def initState : RagState := ⟨none, [], []⟩

/-- `corpus_size()`: `len(_chunks)`. -/
def corpus_size (s : RagState) : Nat := s.chunks.length

/-- Number of vectors held by the index, 0 while `_index is None`. -/
def indexCount (s : RagState) : Nat :=
  match s.index with
  | none => 0
  | some i => i.count

/-- The embedding provider `embed_texts` (external model collaborator,
consumed as a function): a batch of texts to a batch of vectors. -/
abbrev Embed := List Str → List (List ℚ)

/-- The provider contract stated by `embed_texts`'s docstring: the
returned array has shape `(len(texts), dim)`, i.e. one vector per
input text. -/
def EmbedBatchLength (embed : Embed) : Prop :=
  ∀ ts, (embed ts).length = ts.length

/-- `add_document_from_text(text, source_name)`: empty/whitespace text
and empty chunkings are successful no-ops returning 0; otherwise the
chunks are embedded in one batch, `_ensure_index` lazily creates the
index with the batch's dimension (`n_chunks, dim = embeddings.shape`),
`_index.add` appends the batch (or raises `dimMismatch`, propagated
before any list is touched), and the chunk texts and metadata are
appended; the call returns `n_chunks`, the number of embedding rows. -/
def add_document_from_text (embed : Embed) (s : RagState) (text source : Str) :
    Except RagError (RagState × Nat) :=
  if (trim text).isEmpty then .ok (s, 0)
  else
    let chunks := chunkTextRun text
    if chunks.isEmpty then .ok (s, 0)
    else
      let emb := embed chunks
      let nChunks := emb.length
      let dim := (emb.headD []).length
      let idx0 : IndexFlatL2 :=
        match s.index with
        | none => ⟨dim, []⟩
        | some i => i
      match idx0.add emb with
      | .error e => .error e
      | .ok idx' =>
        .ok ({ index := some idx',
               chunks := s.chunks ++ chunks,
               metadata := s.metadata ++ List.replicate chunks.length source },
             nChunks)

/-- The state after a call of `add_document_from_text`: the new state on
success; on an error the exception propagates and the module state is
untouched. -/
def stateAfter (embed : Embed) (s : RagState) (text source : Str) : RagState :=
  match add_document_from_text embed s text source with
  | .ok r => r.1
  | .error _ => s

/-- Run a sequence of `add_document_from_text` calls (text, source
pairs) from a given state; a failed call leaves the state unchanged. -/
def runInserts (embed : Embed) (s : RagState) (docs : List (Str × Str)) : RagState :=
  docs.foldl (fun st d => stateAfter embed st d.1 d.2) s

/-- A query hit as built by `query_corpus`:
`{"text": ..., "score": float(dist), "source": ...}`. -/
structure QueryResult where
  text : Str
  score : ℚ
  source : Str
  deriving DecidableEq, Repr

/-- The row-0 query vector: `embed_texts([query])` has shape
`(1, dim)`. -/
def queryVec (embed : Embed) (q : Str) : List ℚ := (embed [q]).headD []

/-- The result-assembly loop of `query_corpus`: ids out of the chunk
array's bounds are skipped defensively (`idx < 0 or idx >= len(_chunks)`
— ids are naturals here, so only the upper bound remains); in-bounds
ids are materialised to text, score and source. -/
def materialize (s : RagState) (pairs : List (ℚ × Nat)) : List QueryResult :=
  pairs.filterMap (fun p =>
    if p.2 < s.chunks.length then
      some ⟨s.chunks.getD p.2 [], p.1, s.metadata.getD p.2 []⟩
    else none)

/-- `query_corpus(query, top_k)`: returns `[]` when `_index is None or
corpus_size() == 0`; otherwise embeds the query (one provider call),
searches the index with `min(top_k, corpus_size())` and materialises
the hits.  The second component counts the calls made to the embedding
provider (0 on the short-circuit path, 1 otherwise). -/
def query_corpus (embed : Embed) (s : RagState) (q : Str) (topK : Nat) :
    List QueryResult × Nat :=
  match s.index with
  | none => ([], 0)
  | some idx =>
    if corpus_size s = 0 then ([], 0)
    else
      (materialize s (idx.search (queryVec embed q) (min topK (corpus_size s))), 1)

/-! Search ordering and cardinality lemmas. -/

/-- Strict version of the result order: ties in distance are resolved by
strictly ascending insertion id. -/
def resLT (a b : ℚ × Nat) : Prop :=
  a.1 < b.1 ∨ (a.1 = b.1 ∧ a.2 < b.2)

/-- The `(distance, id)` pairs the search sorts. -/
def searchPairs (i : IndexFlatL2) (q : List ℚ) : List (ℚ × Nat) :=
  i.vecs.enum.map (fun p => (sqDist q p.2, p.1))

theorem search_eq_take (i : IndexFlatL2) (q : List ℚ) (k : Nat) :
    i.search q k = (List.insertionSort resLE (searchPairs i q)).take k := rfl

theorem search_sorted (i : IndexFlatL2) (q : List ℚ) (k : Nat) :
    List.Pairwise resLE (i.search q k) :=
  List.Pairwise.sublist (List.take_sublist _ _) (List.sorted_insertionSort resLE _)

theorem searchPairs_map_snd (i : IndexFlatL2) (q : List ℚ) :
    (searchPairs i q).map Prod.snd = List.range i.vecs.length := by
  simp [searchPairs, List.map_map, Function.comp_def]

theorem search_snd_nodup (i : IndexFlatL2) (q : List ℚ) (k : Nat) :
    ((i.search q k).map Prod.snd).Nodup := by
  have hperm : List.Perm (List.insertionSort resLE (searchPairs i q))
      (searchPairs i q) := List.perm_insertionSort _ _
  have hall : ((List.insertionSort resLE (searchPairs i q)).map Prod.snd).Nodup := by
    rw [((hperm.map Prod.snd).nodup_iff), searchPairs_map_snd]
    exact List.nodup_range _
  exact List.Nodup.sublist ((List.take_sublist _ _).map _) hall

theorem mem_search_snd_lt (i : IndexFlatL2) (q : List ℚ) (k : Nat) :
    ∀ p ∈ i.search q k, p.2 < i.count := by
  intro p hp
  have h1 : p ∈ List.insertionSort resLE (searchPairs i q) :=
    List.mem_of_mem_take hp
  have h2 : p ∈ searchPairs i q :=
    (List.perm_insertionSort resLE _).mem_iff.mp h1
  obtain ⟨w, hw, rfl⟩ := List.mem_map.mp h2
  have := List.mem_enum_iff_getElem?.mp hw
  have : w.1 < i.vecs.length := by
    by_contra hge
    rw [List.getElem?_eq_none (by omega)] at this
    exact Option.noConfusion this
  exact this

theorem search_length (i : IndexFlatL2) (q : List ℚ) (k : Nat) :
    (i.search q k).length = min k i.count := by
  simp [search_eq_take, List.length_take, List.length_insertionSort,
    searchPairs, List.enum_length, IndexFlatL2.count]

theorem search_pairwise_strict (i : IndexFlatL2) (q : List ℚ) (k : Nat) :
    List.Pairwise resLT (i.search q k) := by
  have h1 := search_sorted i q k
  have h2 : List.Pairwise (fun a b : ℚ × Nat => a.2 ≠ b.2) (i.search q k) := by
    have := search_snd_nodup i q k
    simpa [List.Nodup, List.pairwise_map] using this
  refine (h1.and h2).imp ?_
  rintro a b ⟨hle | ⟨heq, hle'⟩, hne⟩
  · exact Or.inl hle
  · exact Or.inr ⟨heq, lt_of_le_of_ne hle' hne⟩

theorem resLE_score_le {a b : ℚ × Nat} (h : resLE a b) : a.1 ≤ b.1 := by
  rcases h with h | ⟨h, _⟩
  · exact le_of_lt h
  · exact le_of_eq h

theorem materialize_pairwise_score (s : RagState) (pairs : List (ℚ × Nat))
    (h : List.Pairwise resLE pairs) :
    List.Pairwise (fun a b : QueryResult => a.score ≤ b.score) (materialize s pairs) := by
  refine List.Pairwise.filterMap _ ?_ h
  intro a a' hrel b hb b' hb'
  by_cases ha : a.2 < s.chunks.length
  · by_cases ha' : a'.2 < s.chunks.length
    · simp only [if_pos ha] at hb
      simp only [if_pos ha'] at hb'
      simp only [Option.mem_def, Option.some.injEq] at hb hb'
      subst hb; subst hb'
      exact resLE_score_le hrel
    · simp [if_neg ha'] at hb'
  · simp [if_neg ha] at hb

theorem materialize_length (s : RagState) (pairs : List (ℚ × Nat))
    (h : ∀ p ∈ pairs, p.2 < s.chunks.length) :
    (materialize s pairs).length = pairs.length := by
  induction pairs with
  | nil => rfl
  | cons a l ih =>
    have ha := h a (List.mem_cons_self _ _)
    have ht := ih (fun p hp => h p (List.mem_cons_of_mem _ hp))
    rw [materialize, List.filterMap_cons]
    simp only [if_pos ha]
    rw [materialize] at ht
    simp only [List.length_cons, ht]

/-! Insertion lemmas. -/

theorem IndexFlatL2.add_ok_count {i i' : IndexFlatL2} {emb : List (List ℚ)}
    (h : i.add emb = .ok i') : i'.count = i.count + emb.length := by
  cases emb with
  | nil =>
    rw [IndexFlatL2.add] at h
    simp only [List.head?_nil, Except.ok.injEq] at h
    subst h; simp [IndexFlatL2.count]
  | cons v rest =>
    rw [IndexFlatL2.add] at h
    simp only [List.head?_cons] at h
    by_cases hv : v.length = i.d
    · rw [if_pos hv] at h
      simp only [Except.ok.injEq] at h
      subst h
      simp [IndexFlatL2.count, List.length_append]
    · rw [if_neg hv] at h
      exact absurd h (by simp)

/-- Case analysis of a successful `add_document_from_text` call: either
it was a no-op returning 0, or it appended the text's chunks, one
metadata entry per chunk, and the embedding batch to the index, and
returned the number of embedding rows. -/
theorem add_ok_spec (embed : Embed) (s : RagState) (text source : Str)
    (s' : RagState) (n : Nat)
    (h : add_document_from_text embed s text source = .ok (s', n)) :
    (s' = s ∧ n = 0) ∨
    (n = (embed (chunkTextRun text)).length ∧
     s'.chunks = s.chunks ++ chunkTextRun text ∧
     s'.metadata = s.metadata ++ List.replicate (chunkTextRun text).length source ∧
     ∃ idx', s'.index = some idx' ∧
       idx'.count = indexCount s + (embed (chunkTextRun text)).length) := by
  simp only [add_document_from_text] at h
  split at h
  · simp only [Except.ok.injEq, Prod.mk.injEq] at h
    exact Or.inl ⟨h.1.symm, h.2.symm⟩
  · split at h
    · simp only [Except.ok.injEq, Prod.mk.injEq] at h
      exact Or.inl ⟨h.1.symm, h.2.symm⟩
    · split at h
      · exact absurd h (by simp)
      · rename_i idx' heq
        simp only [Except.ok.injEq, Prod.mk.injEq] at h
        obtain ⟨hs', hn⟩ := h
        refine Or.inr ⟨hn.symm, ?_, ?_, idx', ?_, ?_⟩
        · rw [← hs']
        · rw [← hs']
        · rw [← hs']
        · have hcount := IndexFlatL2.add_ok_count heq
          rw [hcount]
          congr 1
          cases hsi : s.index <;> simp [indexCount, hsi, IndexFlatL2.count]

/-- The alignment invariant of the corpus store: the chunk list, the
metadata list and the vector index agree on the number of entries. -/
def Aligned (s : RagState) : Prop :=
  s.chunks.length = s.metadata.length ∧ indexCount s = s.chunks.length

theorem aligned_initState : Aligned initState := ⟨rfl, rfl⟩

theorem aligned_stateAfter (embed : Embed) (h : EmbedBatchLength embed)
    (s : RagState) (text source : Str) (hs : Aligned s) :
    Aligned (stateAfter embed s text source) := by
  rw [stateAfter]
  cases hadd : add_document_from_text embed s text source with
  | error e => exact hs
  | ok r =>
    show Aligned r.1
    rcases add_ok_spec embed s text source r.1 r.2 (by rw [hadd]) with
      ⟨hs', _⟩ | ⟨hn, hchunks, hmeta, idx', hidx, hcount⟩
    · rw [hs']; exact hs
    · have hlen := h (chunkTextRun text)
      constructor
      · rw [hchunks, hmeta]
        simp [List.length_append, hs.1]
      · have hic : indexCount r.1 = idx'.count := by simp [indexCount, hidx]
        rw [hic, hcount, hchunks]
        simp only [List.length_append]
        have h1 := hs.2
        omega

theorem aligned_runInserts (embed : Embed) (h : EmbedBatchLength embed) :
    ∀ (docs : List (Str × Str)) (s : RagState), Aligned s →
      Aligned (runInserts embed s docs) := by
  intro docs
  induction docs with
  | nil => intro s hs; exact hs
  | cons d rest ih =>
    intro s hs
    exact ih (stateAfter embed s d.1 d.2) (aligned_stateAfter embed h s d.1 d.2 hs)

/-! Chunker lemmas. -/

/-- Every window list produced by the loop starts at the loop's start
position and chains by `start of next = end of previous - overlap`
(natural subtraction, i.e. clamped at 0). -/
theorem windowLoop_spec (len maxChars overlap : Nat) :
    ∀ fuel start ws, windowLoop len maxChars overlap fuel start = some ws →
      (∀ w ∈ ws.head?, w.1 = start) ∧
      List.Chain' (fun w w' : Nat × Nat => w'.1 = w.2 - overlap) ws := by
  intro fuel
  induction fuel with
  | zero =>
    intro start ws h
    exact absurd h (by simp [windowLoop])
  | succ n ih =>
    intro start ws h
    rw [windowLoop] at h
    by_cases hlt : start < len
    · rw [if_pos hlt] at h
      by_cases hend : min (start + maxChars) len = len
      · rw [if_pos hend] at h
        simp only [Option.some.injEq] at h
        subst h
        exact ⟨by simp, by simp⟩
      · rw [if_neg hend] at h
        cases hrec : windowLoop len maxChars overlap n
            (min (start + maxChars) len - overlap) with
        | none => rw [hrec] at h; exact absurd h (by simp)
        | some ws' =>
          rw [hrec] at h
          simp only [Option.map_some', Option.some.injEq] at h
          subst h
          obtain ⟨hhead, hchain⟩ := ih _ _ hrec
          refine ⟨by simp, ?_⟩
          rw [List.chain'_cons']
          exact ⟨fun y hy => hhead y hy, hchain⟩
    · rw [if_neg hlt] at h
      simp only [Option.some.injEq] at h
      subst h
      exact ⟨by simp, by simp⟩

/-- No chunk produced by the loop is longer than `maxChars`: each is a
stripped window of width at most `maxChars`. -/
theorem chunkLoop_length_le (cs : Str) (maxChars overlap : Nat) :
    ∀ fuel start out, chunkLoop cs maxChars overlap fuel start = some out →
      ∀ c ∈ out, c.length ≤ maxChars := by
  intro fuel
  induction fuel with
  | zero =>
    intro start out h
    exact absurd h (by simp [chunkLoop])
  | succ n ih =>
    intro start out h
    rw [chunkLoop] at h
    by_cases hlt : start < cs.length
    · rw [if_pos hlt] at h
      simp only at h
      have hchunk : (trim ((cs.drop start).take
          (min (start + maxChars) cs.length - start))).length ≤ maxChars := by
        have h1 := trim_length_le ((cs.drop start).take
          (min (start + maxChars) cs.length - start))
        have h2 : ((cs.drop start).take
            (min (start + maxChars) cs.length - start)).length ≤
            min (start + maxChars) cs.length - start := by
          rw [List.length_take]
          exact min_le_left _ _
        have h3 : min (start + maxChars) cs.length ≤ start + maxChars :=
          min_le_left _ _
        omega
      by_cases hend : min (start + maxChars) cs.length = cs.length
      · rw [if_pos hend] at h
        simp only [Option.map_some', Option.some.injEq] at h
        intro c hc
        by_cases hie : (trim ((cs.drop start).take
            (min (start + maxChars) cs.length - start))).isEmpty = true
        · rw [if_pos hie] at h; subst h; exact absurd hc (by simp)
        · rw [if_neg hie] at h; subst h
          rw [List.mem_singleton] at hc
          subst hc
          exact hchunk
      · rw [if_neg hend] at h
        cases hrec : chunkLoop cs maxChars overlap n
            (min (start + maxChars) cs.length - overlap) with
        | none => rw [hrec] at h; exact absurd h (by simp)
        | some out' =>
          rw [hrec] at h
          simp only [Option.map_some', Option.some.injEq] at h
          intro c hc
          by_cases hie : (trim ((cs.drop start).take
              (min (start + maxChars) cs.length - start))).isEmpty = true
          · rw [if_pos hie] at h; subst h
            exact ih _ _ hrec c hc
          · rw [if_neg hie] at h; subst h
            rcases List.mem_cons.mp hc with rfl | hm
            · exact hchunk
            · exact ih _ _ hrec c hm
    · rw [if_neg hlt] at h
      simp only [Option.some.injEq] at h
      subst h
      intro c hc
      exact absurd hc (by simp)

/-- The chunk list is exactly the windows, sliced out of the text,
stripped, with empty results dropped: the two loops agree. -/
theorem chunkLoop_eq_windowLoop (cs : Str) (maxChars overlap : Nat) :
    ∀ fuel start,
      chunkLoop cs maxChars overlap fuel start =
        (windowLoop cs.length maxChars overlap fuel start).map (fun ws =>
          (ws.map (fun w => trim ((cs.drop w.1).take (w.2 - w.1)))).filter
            (fun c => !c.isEmpty)) := by
  intro fuel
  induction fuel with
  | zero => intro start; rfl
  | succ n ih =>
    intro start
    rw [chunkLoop, windowLoop]
    by_cases hlt : start < cs.length
    · by_cases hend : min (start + maxChars) cs.length = cs.length
      · simp only [if_pos hlt, if_pos hend, Option.map_some', Option.some.injEq,
          List.map_cons, List.map_nil]
        by_cases hie : (trim ((cs.drop start).take
            (min (start + maxChars) cs.length - start))).isEmpty = true <;>
          simp [hie, List.filter]
      · simp only [if_pos hlt, if_neg hend, ih]
        cases windowLoop cs.length maxChars overlap n
            (min (start + maxChars) cs.length - overlap) with
        | none => rfl
        | some ws =>
          simp only [Option.map_some', Option.some.injEq, List.map_cons]
          by_cases hie : (trim ((cs.drop start).take
              (min (start + maxChars) cs.length - start))).isEmpty = true <;>
            simp [hie, List.filter]
    · simp [if_neg hlt]

/-! Concrete instances used in example scenarios and witnesses. -/

/-- An embedding provider returning one 1-dimensional vector per text. -/
def constEmbed : Embed := fun ts => ts.map (fun _ => ([0] : List ℚ))

theorem constEmbed_batch : EmbedBatchLength constEmbed := by
  intro ts; simp [constEmbed]

/-- A corpus of 4 chunks with pairwise distinct 2-dimensional
embeddings (spec example scenario 3). -/
def state4 : RagState :=
  ⟨some ⟨2, [[0, 0], [1, 0], [2, 0], [3, 0]]⟩,
   [['c', '0'], ['c', '1'], ['c', '2'], ['c', '3']],
   [['s', '0'], ['s', '1'], ['s', '2'], ['s', '3']]⟩

/-- A query embedder returning exactly chunk 2's embedding. -/
def embedQ4 : Embed := fun _ => [[2, 0]]

/-- A two-chunk corpus with a 1-dimensional index. -/
def exState : RagState :=
  ⟨some ⟨1, [[0], [1]]⟩, [['a'], ['b']], [['s'], ['t']]⟩

/-- A one-chunk corpus whose index holds 2-dimensional vectors. -/
def mmState : RagState := ⟨some ⟨2, [[0, 0]]⟩, [['x']], [['m']]⟩

/-- An embedding provider producing 3-dimensional vectors. -/
def wideEmbed : Embed := fun ts => ts.map (fun _ => ([0, 0, 0] : List ℚ))

/-- The state after inserting the text "hi" into the empty corpus with
`constEmbed`. -/
def exInserted : RagState := ⟨some ⟨1, [[0]]⟩, [['h', 'i']], [['a']]⟩

/-! The claims. -/

/-- C1: after every call of `add_document_from_text` — for every
sequence of insert calls starting from the initial state, under the
embedding provider's one-vector-per-text contract — the three parallel
structures stay aligned: the chunk list, metadata list and index vector
count have one common length, and `corpus_size()` equals it. -/
theorem corpus_alignment_invariant (embed : Embed) (h : EmbedBatchLength embed)
    (docs : List (Str × Str)) :
    (runInserts embed initState docs).chunks.length =
        (runInserts embed initState docs).metadata.length ∧
    indexCount (runInserts embed initState docs) =
        (runInserts embed initState docs).chunks.length ∧
    corpus_size (runInserts embed initState docs) =
        (runInserts embed initState docs).chunks.length := by
  obtain ⟨h1, h2⟩ := aligned_runInserts embed h docs initState aligned_initState
  exact ⟨h1, h2, rfl⟩

theorem corpus_alignment_invariant_witness :
    (runInserts constEmbed initState [(['h', 'i'], ['a'])]).chunks.length =
        (runInserts constEmbed initState [(['h', 'i'], ['a'])]).metadata.length ∧
    indexCount (runInserts constEmbed initState [(['h', 'i'], ['a'])]) =
        (runInserts constEmbed initState [(['h', 'i'], ['a'])]).chunks.length ∧
    corpus_size (runInserts constEmbed initState [(['h', 'i'], ['a'])]) =
        (runInserts constEmbed initState [(['h', 'i'], ['a'])]).chunks.length :=
  corpus_alignment_invariant constEmbed constEmbed_batch [(['h', 'i'], ['a'])]

/-- C2: the result sequence of `query_corpus` is deterministically
ordered: the `(distance, id)` pairs of the underlying search are
strictly increasing in the lexicographic (distance, insertion id)
order — so distances are non-decreasing and equal distances appear in
ascending insertion id — and the user-visible scores of the query
results are non-decreasing. -/
theorem retrieval_order_deterministic :
    (∀ (idx : IndexFlatL2) (qv : List ℚ) (k : Nat),
        List.Pairwise resLT (idx.search qv k)) ∧
    (∀ (embed : Embed) (s : RagState) (q : Str) (topK : Nat),
        List.Pairwise (fun a b : QueryResult => a.score ≤ b.score)
          ((query_corpus embed s q topK).1)) := by
  constructor
  · exact search_pairwise_strict
  · intro embed s q topK
    rw [query_corpus]
    cases s.index with
    | none => simp
    | some idx =>
      by_cases hz : corpus_size s = 0
      · simp [hz]
      · simp only [if_neg hz]
        exact materialize_pairwise_score s _ (search_sorted idx _ _)

/-- C4: inserting a batch whose embedding dimension disagrees with an
already-initialized index fails with the Dimension-Mismatch error and
inserts nothing: the state after the call is exactly the state
before. -/
theorem dim_mismatch_atomic (embed : Embed) (s : RagState) (idx : IndexFlatL2)
    (text source : Str)
    (hidx : s.index = some idx)
    (htext : (trim text).isEmpty = false)
    (hch : (chunkTextRun text).isEmpty = false)
    (hne : embed (chunkTextRun text) ≠ [])
    (hd : ((embed (chunkTextRun text)).headD []).length ≠ idx.d) :
    add_document_from_text embed s text source = .error RagError.dimMismatch ∧
    stateAfter embed s text source = s := by
  have hmain : add_document_from_text embed s text source =
      .error RagError.dimMismatch := by
    rw [add_document_from_text]
    rw [if_neg (by simp [htext])]
    rw [if_neg (by simp [hch])]
    simp only [hidx]
    cases hemb : embed (chunkTextRun text) with
    | nil => exact absurd hemb hne
    | cons v rest =>
      rw [hemb] at hd
      simp only [List.headD_cons] at hd
      simp only [IndexFlatL2.add, List.head?_cons]
      rw [if_neg hd]
  refine ⟨hmain, ?_⟩
  rw [stateAfter, hmain]

theorem dim_mismatch_atomic_witness :
    add_document_from_text wideEmbed mmState ['B', 'B', 'B', 'B'] ['s'] =
        .error RagError.dimMismatch ∧
    stateAfter wideEmbed mmState ['B', 'B', 'B', 'B'] ['s'] = mmState :=
  dim_mismatch_atomic wideEmbed mmState ⟨2, [[0, 0]]⟩ ['B', 'B', 'B', 'B'] ['s']
    rfl (by decide) (by decide) (by decide) (by decide)

/-- C6: on a non-empty corpus whose index holds one vector per chunk,
`query_corpus` returns exactly `min(top_k, corpus_size())` results —
an oversized `top_k` returns all `corpus_size()` chunks — and the
underlying search never repeats a stored chunk's id. -/
theorem query_topk_clamped (embed : Embed) (s : RagState) (idx : IndexFlatL2)
    (q : Str) (topK : Nat)
    (hidx : s.index = some idx) (hcount : idx.count = corpus_size s)
    (hpos : 0 < corpus_size s) :
    ((query_corpus embed s q topK).1).length = min topK (corpus_size s) ∧
    ((idx.search (queryVec embed q) (min topK (corpus_size s))).map Prod.snd).Nodup := by
  refine ⟨?_, search_snd_nodup _ _ _⟩
  simp only [query_corpus, hidx]
  rw [if_neg (by omega)]
  show (materialize s (idx.search (queryVec embed q)
      (min topK (corpus_size s)))).length = _
  rw [materialize_length]
  · rw [search_length]
    have hsz : corpus_size s = s.chunks.length := rfl
    omega
  · intro p hp
    have hlt := mem_search_snd_lt idx (queryVec embed q)
      (min topK (corpus_size s)) p hp
    have hsz : corpus_size s = s.chunks.length := rfl
    omega

theorem query_topk_clamped_witness :
    ((query_corpus constEmbed exState ['q'] 5).1).length =
        min 5 (corpus_size exState) ∧
    (((exState.index.getD ⟨0, []⟩).search (queryVec constEmbed ['q'])
        (min 5 (corpus_size exState))).map Prod.snd).Nodup :=
  query_topk_clamped constEmbed exState ⟨1, [[0], [1]]⟩ ['q'] 5 rfl rfl
    (by decide)

/-- C7: querying an empty or uninitialized corpus returns the empty
result list, is not an error, and makes no call to the embedding
provider (the call counter in the second component stays 0). -/
theorem empty_corpus_query_noop (embed : Embed) (s : RagState) (q : Str)
    (topK : Nat) (h : s.index = none ∨ corpus_size s = 0) :
    query_corpus embed s q topK = ([], 0) := by
  rcases h with h | h
  · simp [query_corpus, h]
  · rw [query_corpus]
    cases s.index with
    | none => rfl
    | some idx => simp [h]

theorem empty_corpus_query_noop_witness :
    query_corpus constEmbed initState ['q'] 4 = ([], 0) :=
  empty_corpus_query_noop constEmbed initState ['q'] 4 (Or.inl rfl)

/-- C8: on the 4-chunk corpus `state4` with pairwise distinct
embeddings, querying with a vector identical to chunk 2's embedding and
`top_k = 1` yields exactly one result, carrying chunk 2's text and
score 0. -/
theorem exact_match_scenario :
    (query_corpus embedQ4 state4 ['p'] 1).1 =
        [⟨['c', '2'], 0, ['s', '2']⟩] ∧
    ((query_corpus embedQ4 state4 ['p'] 1).1).length = 1 ∧
    queryVec embedQ4 ['p'] = [2, 0] ∧
    (state4.index.getD ⟨0, []⟩).vecs.getD 2 [] = [2, 0] ∧
    state4.chunks.getD 2 [] = ['c', '2'] ∧
    (state4.index.getD ⟨0, []⟩).vecs.Nodup := by
  refine ⟨?_, ?_, by norm_num [queryVec, embedQ4], by norm_num [state4],
    by norm_num [state4], by norm_num [state4]⟩
  · norm_num [query_corpus, state4, embedQ4, corpus_size, queryVec, materialize,
      IndexFlatL2.search, searchPairs, sqDist, List.insertionSort,
      List.orderedInsert, resLE]
    decide
  · norm_num [query_corpus, state4, embedQ4, corpus_size, queryVec, materialize,
      IndexFlatL2.search, searchPairs, sqDist, List.insertionSort,
      List.orderedInsert, resLE]
    decide

/-- C10: a successful `add_document_from_text` call only appends: every
chunk and metadata entry below the pre-call `corpus_size()` is
unchanged, and the post-call `corpus_size()` is the pre-call size plus
the returned count (under the provider's one-vector-per-text
contract). -/
theorem add_append_only (embed : Embed) (h : EmbedBatchLength embed)
    (s : RagState) (text source : Str) (s' : RagState) (n : Nat)
    (hok : add_document_from_text embed s text source = .ok (s', n)) :
    s'.chunks.take s.chunks.length = s.chunks ∧
    s'.metadata.take s.metadata.length = s.metadata ∧
    corpus_size s' = corpus_size s + n := by
  rcases add_ok_spec embed s text source s' n hok with
    ⟨rfl, rfl⟩ | ⟨hn, hchunks, hmeta, _, _, _⟩
  · exact ⟨List.take_length _, List.take_length _, rfl⟩
  · refine ⟨?_, ?_, ?_⟩
    · rw [hchunks]; exact List.take_left _ _
    · rw [hmeta]; exact List.take_left _ _
    · show s'.chunks.length = s.chunks.length + n
      rw [hchunks, List.length_append, hn, h (chunkTextRun text)]

theorem add_append_only_witness :
    exInserted.chunks.take initState.chunks.length = initState.chunks ∧
    exInserted.metadata.take initState.metadata.length = initState.metadata ∧
    corpus_size exInserted = corpus_size initState + 1 :=
  add_append_only constEmbed constEmbed_batch initState ['h', 'i'] ['a']
    exInserted 1 rfl

set_option maxRecDepth 10000 in
/-- C5: chunking 1000 copies of the character A with `max_chars = 800`,
`overlap = 200` yields exactly the two chunks at positions [0,800) and
[600,1000); in general every produced window list chains by
`start of window k+1 = end of window k - overlap` (clamped at 0 by
natural subtraction), no chunk exceeds `max_chars` characters, and the
chunk list is exactly the stripped non-empty slices of those windows. -/
theorem chunking_example_and_window_geometry :
    chunkText (List.replicate 1000 'A') 800 200 =
        some [List.replicate 800 'A', List.replicate 400 'A'] ∧
    chunkWindows (List.replicate 1000 'A') 800 200 =
        some [(0, 800), (600, 1000)] ∧
    (∀ (text : Str) (maxChars overlap : Nat) (ws : List (Nat × Nat)),
        chunkWindows text maxChars overlap = some ws →
        List.Chain' (fun w w' : Nat × Nat => w'.1 = w.2 - overlap) ws) ∧
    (∀ (text : Str) (maxChars overlap : Nat) (out : List Str) (c : Str),
        chunkText text maxChars overlap = some out → c ∈ out →
        c.length ≤ maxChars) ∧
    (∀ (text : Str) (maxChars overlap : Nat),
        chunkText text maxChars overlap =
          (chunkWindows text maxChars overlap).map (fun ws =>
            (ws.map (fun w =>
              trim (((normalizeNewlines text).drop w.1).take (w.2 - w.1)))).filter
              (fun c => !c.isEmpty))) := by
  refine ⟨by decide, by decide, ?_, ?_, ?_⟩
  · intro text maxChars overlap ws h
    exact (windowLoop_spec _ _ _ _ _ _ h).2
  · intro text maxChars overlap out c h hc
    exact chunkLoop_length_le _ _ _ _ _ _ h c hc
  · intro text maxChars overlap
    exact chunkLoop_eq_windowLoop _ _ _ _ _

theorem chunking_example_and_window_geometry_witness :
    List.Chain' (fun w w' : Nat × Nat => w'.1 = w.2 - 200)
        [(0, 800), (600, 1000)] ∧
    (['B', 'B'] : Str).length ≤ 800 :=
  ⟨chunking_example_and_window_geometry.2.2.1 (List.replicate 1000 'A')
      800 200 [(0, 800), (600, 1000)]
      chunking_example_and_window_geometry.2.1,
   chunking_example_and_window_geometry.2.2.2.1 ['B', 'B'] 800 200
      [['B', 'B']] ['B', 'B'] (by decide) (by decide)⟩

set_option maxRecDepth 10000 in
/-- C3 (refuted by the code): `_chunk_text` does NOT clamp `overlap`
below `max_chars`; with `overlap = max_chars = 800` and a text of 801
characters the window never advances (`start = max(0, 800 - 800) = 0`
forever) and the loop runs out of any finite fuel, i.e. the Python loop
never terminates. -/
theorem chunk_text_diverges_on_overlap_eq_max :
    (∀ fuel, chunkLoop (List.replicate 801 'A') 800 800 fuel 0 = none) ∧
    chunkText (List.replicate 801 'A') 800 800 = none := by
  have hmain : ∀ fuel, chunkLoop (List.replicate 801 'A') 800 800 fuel 0 = none := by
    intro fuel
    induction fuel with
    | zero => rfl
    | succ n ih =>
      rw [chunkLoop]
      simp only [List.length_replicate]
      norm_num
      rw [ih]
  have hnorm : normalizeNewlines (List.replicate 801 'A') =
      List.replicate 801 'A' := by decide
  refine ⟨hmain, ?_⟩
  show chunkLoop (normalizeNewlines (List.replicate 801 'A')) 800 800
      ((normalizeNewlines (List.replicate 801 'A')).length + 1) 0 = none
  rw [hnorm]
  exact hmain _

end RagEngine
